import Mathlib

/-!
Verification of the GREMS FDTD solver against its specification.

The definitions below are shallow embeddings of the corresponding Rust
functions in src/main.rs, src/fdtd/mod.rs and src/fdtd/pml.rs.  Machine
floats of the source (f32) are modelled as exact rationals or reals;
u8 wrapping addition is modelled with explicit reduction modulo 256;
saturating casts to u32 are modelled with Int.toNat.
-/

namespace Grems

/-- Boundary condition variants of the configuration
(src/fdtd/mod.rs, BoundaryCondition). -/
inductive BoundaryCondition where
  | pml (sigma alpha : ℚ) (cells : ℕ)
  | pec
  | pmc
deriving DecidableEq

/-- Extra grid extent added by the boundary: twice the PML thickness,
zero for PEC and PMC (src/fdtd/mod.rs lines 31-36). -/
def BoundaryCondition.get_extra_grid_extent : BoundaryCondition → ℕ
  | .pml _ _ cells => cells * 2
  | .pec | .pmc => 0

/-- Per-side PML thickness C of a boundary: the cells field for PML,
zero for PEC and PMC.  This is the quantity the spec calls C. -/
def BoundaryCondition.pmlThickness : BoundaryCondition → ℕ
  | .pml _ _ cells => cells
  | .pec | .pmc => 0

/-- Per-axis fractional step count step = (max - min) / dx
(src/fdtd/mod.rs lines 100-102). -/
def stepOf (minv maxv dx : ℚ) : ℚ := (maxv - minv) / dx

/-- One component of the world-to-grid shift vector exactly as
FDTD::new computes it (src/fdtd/mod.rs lines 764-771):
shift = -(min + (step - floor step) * dx * 0.5
          - extra_grid_extent * dx * 0.5). -/
def shiftComponent (boundary : BoundaryCondition) (dx minv maxv : ℚ) : ℚ :=
  -(minv + (stepOf minv maxv dx - (⌊stepOf minv maxv dx⌋ : ℚ)) * dx * (1 / 2)
      - (boundary.get_extra_grid_extent : ℚ) * dx * (1 / 2))

/-- Shift component as the SPEC words it (refinement reference):
shift = -(min + (step - floor step) * dx / 2 - C * dx / 2) with C the
per-side PML thickness. -/
def specShiftComponent (boundary : BoundaryCondition) (dx minv maxv : ℚ) : ℚ :=
  -(minv + (stepOf minv maxv dx - (⌊stepOf minv maxv dx⌋ : ℚ)) * dx / 2
      - (boundary.pmlThickness : ℚ) * dx / 2)

/-- Domain validation error message for one axis, exactly the string of
the ensure calls in src/main.rs lines 463-474. -/
def domainErrorMessage (axis : ℕ) : String :=
  "RHS of domain[" ++ toString axis ++ "] is less or equal than LHS!"

/-- Domain validation of the driver (src/main.rs lines 463-474): the
three ensure calls in order, each failing with the message naming its
axis when max is not strictly greater than min. -/
def validateDomain (domain : Fin 3 → ℚ × ℚ) : Except String Unit :=
  if ¬ ((domain 0).2 > (domain 0).1) then .error (domainErrorMessage 0)
  else if ¬ ((domain 1).2 > (domain 1).1) then .error (domainErrorMessage 1)
  else if ¬ ((domain 2).2 > (domain 2).1) then .error (domainErrorMessage 2)
  else .ok ()

/-- Box size passed to the volumetric injection kernel
(src/main.rs lines 974-990 and 1054-1070): per axis,
ceil(size / spatial_step) cast to u32 when the size component is
positive, else 1.  The saturating cast of a possibly negative ceiling
is Int.toNat. -/
def actualSize (dx : ℚ) (size : Fin 3 → ℚ) : Fin 3 → ℕ :=
  ![if size 0 > 0 then (⌈size 0 / dx⌉).toNat else 1,
    if size 1 > 0 then (⌈size 1 / dx⌉).toNat else 1,
    if size 2 > 0 then (⌈size 2 / dx⌉).toNat else 1]

/-- C8: the domain check passes exactly when every axis has max > min,
and on failure the reported message names an offending axis. -/
theorem domain_validation_iff (domain : Fin 3 → ℚ × ℚ) :
    (validateDomain domain = .ok () ↔ ∀ i : Fin 3, (domain i).1 < (domain i).2) ∧
    (validateDomain domain ≠ .ok () →
      ∃ i : Fin 3, (domain i).2 ≤ (domain i).1 ∧
        validateDomain domain = .error (domainErrorMessage i)) := by
  by_cases h0 : (domain 0).1 < (domain 0).2
  · by_cases h1 : (domain 1).1 < (domain 1).2
    · by_cases h2 : (domain 2).1 < (domain 2).2
      · have hv : validateDomain domain = .ok () := by
          simp [validateDomain, h0, h1, h2]
        refine ⟨⟨fun _ => ?_, fun _ => hv⟩, fun hne => absurd hv hne⟩
        intro i
        fin_cases i
        · exact h0
        · exact h1
        · exact h2
      · have hv : validateDomain domain = .error (domainErrorMessage 2) := by
          simp [validateDomain, h0, h1, h2]
        refine ⟨⟨fun h => ?_, fun hall => absurd (hall 2) h2⟩,
          fun _ => ⟨2, not_lt.mp h2, hv⟩⟩
        rw [hv] at h
        cases h
    · have hv : validateDomain domain = .error (domainErrorMessage 1) := by
        simp [validateDomain, h0, h1]
      refine ⟨⟨fun h => ?_, fun hall => absurd (hall 1) h1⟩,
        fun _ => ⟨1, not_lt.mp h1, hv⟩⟩
      rw [hv] at h
      cases h
  · have hv : validateDomain domain = .error (domainErrorMessage 0) := by
      simp [validateDomain, h0]
    refine ⟨⟨fun h => ?_, fun hall => absurd (hall 0) h0⟩,
      fun _ => ⟨0, not_lt.mp h0, hv⟩⟩
    rw [hv] at h
    cases h

lemma actualSize_apply (dx : ℚ) (size : Fin 3 → ℚ) (i : Fin 3) :
    actualSize dx size i = if 0 < size i then (⌈size i / dx⌉).toNat else 1 := by
  fin_cases i <;> simp [actualSize]

/-- C4 counterexample: for a PML boundary of thickness 8 with dx = 1 on
domain axis [0, 1], the shift computed by FDTD::new is 8 while the spec
formula with C * dx / 2 gives 4. -/
theorem shift_formula_counterexample :
    shiftComponent (.pml 1 0 8) 1 0 1 ≠ specShiftComponent (.pml 1 0 8) 1 0 1 := by
  norm_num [shiftComponent, specShiftComponent, stepOf,
    BoundaryCondition.get_extra_grid_extent, BoundaryCondition.pmlThickness]

/-- C4 amended: each axis component of the shift vector equals
-(min + (step - floor step) * dx / 2 - C * dx), i.e. the halo term is
C * dx (equivalently extra_grid_extent * dx / 2), not C * dx / 2. -/
theorem shift_component_formula (boundary : BoundaryCondition) (dx minv maxv : ℚ) :
    shiftComponent boundary dx minv maxv =
      -(minv + (stepOf minv maxv dx - (⌊stepOf minv maxv dx⌋ : ℚ)) * dx / 2
          - (boundary.pmlThickness : ℚ) * dx) := by
  cases boundary <;>
    simp only [shiftComponent, BoundaryCondition.get_extra_grid_extent,
      BoundaryCondition.pmlThickness] <;>
    push_cast <;>
    ring

/-- C6: the box size passed to the volumetric injection kernel uses each
axis own size component (ceil(size / dx) when positive, else 1), and the
value on one axis depends only on that axis: dimensions 2 and 3 are not
computed from size[0]. -/
theorem actual_size_own_component :
    (∀ (dx : ℚ) (size : Fin 3 → ℚ) (i : Fin 3),
      actualSize dx size i = if 0 < size i then (⌈size i / dx⌉).toNat else 1) ∧
    (∀ (dx : ℚ) (s t : Fin 3 → ℚ) (i : Fin 3), s i = t i →
      actualSize dx s i = actualSize dx t i) := by
  refine ⟨actualSize_apply, ?_⟩
  intro dx s t i h
  rw [actualSize_apply, actualSize_apply, h]

/-- Witness for C6 at concrete inputs: axis 1 of two size vectors agreeing
only on axis 1 yields the same box extent. -/
theorem actual_size_own_component_witness :
    (![5, 2, 3] : Fin 3 → ℚ) 1 = (![7, 2, 3] : Fin 3 → ℚ) 1 ∧
    actualSize 1 ![5, 2, 3] 1 = actualSize 1 ![7, 2, 3] 1 :=
  ⟨by norm_num, actual_size_own_component.2 1 ![5, 2, 3] ![7, 2, 3] 1 (by norm_num)⟩

/-- Witness for C8 at a concrete inverted domain: validation fails and
reports the offending axis. -/
theorem domain_validation_iff_witness :
    validateDomain ![(0, 1), (2, 1), (0, 1)] ≠ .ok () ∧
    ∃ i : Fin 3, ((![(0, 1), (2, 1), (0, 1)] : Fin 3 → ℚ × ℚ) i).2 ≤
        ((![(0, 1), (2, 1), (0, 1)] : Fin 3 → ℚ × ℚ) i).1 ∧
      validateDomain ![(0, 1), (2, 1), (0, 1)] = .error (domainErrorMessage i) := by
  have hv : validateDomain ![(0, 1), (2, 1), (0, 1)] = .error (domainErrorMessage 1) := by
    norm_num [validateDomain]
  have hne : validateDomain ![(0, 1), (2, 1), (0, 1)] ≠ .ok () := by
    rw [hv]
    intro h
    cases h
  exact ⟨hne, (domain_validation_iff ![(0, 1), (2, 1), (0, 1)]).2 hne⟩

/-- Gaussian pulse envelope as the driver computes it per step n
(src/main.rs lines 947-953 and 1027-1033):
exp(-((pi * fwhm * (n * dt - delay))^2 / (4 * ln 2))^2). -/
noncomputable def pulseEnvelope (fwhm dt delay : ℝ) (n : ℕ) : ℝ :=
  Real.exp (-((Real.pi * fwhm * ((n : ℝ) * dt - delay)) ^ 2 / (4 * Real.log 2)) ^ 2)

/-- Carrier as the driver computes it per step n (src/main.rs lines
955-960 and 1035-1040): cos(-2 * pi * (n * dt - delay) / wavelength
+ phase to radians), with to_radians multiplying by pi / 180. -/
noncomputable def cwComponent (wavelength phase dt delay : ℝ) (n : ℕ) : ℝ :=
  Real.cos (-2 * Real.pi * ((n : ℝ) * dt - delay) / wavelength
    + phase * (Real.pi / 180))

/-- Euclidean norm of a 3-vector, as nalgebra computes it. -/
noncomputable def vecNorm (v : Fin 3 → ℝ) : ℝ := Real.sqrt (v 0 ^ 2 + v 1 ^ 2 + v 2 ^ 2)

/-- Componentwise division of a 3-vector by its Euclidean norm
(nalgebra normalize). -/
noncomputable def normalizeVec (v : Fin 3 → ℝ) : Fin 3 → ℝ := fun i => v i / vecNorm v

/-- Strength vector the driver passes to the volumetric injection kernel
(src/main.rs lines 962 and 992-997, 1042 and 1072-1077):
direction.normalize() * pulse_envelope * cw_component * power. -/
noncomputable def volumeStrength (direction : Fin 3 → ℝ)
    (wavelength phase delay fwhm power dt : ℝ) (n : ℕ) : Fin 3 → ℝ :=
  fun i => normalizeVec direction i * pulseEnvelope fwhm dt delay n *
    cwComponent wavelength phase dt delay n * power

/-- Strength vector as the SPEC words it (refinement reference):
normalize(direction) * power * envelope * carrier with
envelope = exp(-((pi fwhm (n dt - delay))^2 / (4 ln 2))^2) and
carrier = cos(-(2 pi (n dt - delay) / wavelength) + phase in radians). -/
noncomputable def specVolumeStrength (direction : Fin 3 → ℝ)
    (wavelength phase delay fwhm power dt : ℝ) (n : ℕ) : Fin 3 → ℝ :=
  fun i => normalizeVec direction i * power *
    Real.exp (-((Real.pi * fwhm * ((n : ℝ) * dt - delay)) ^ 2
      / (4 * Real.log 2)) ^ 2) *
    Real.cos (-(2 * Real.pi * ((n : ℝ) * dt - delay) / wavelength)
      + phase * (Real.pi / 180))

/-- C5: for every volumetric source and step, the strength vector passed
to the injection kernel equals the spec formula
normalize(direction) * power * envelope * carrier. -/
theorem volume_strength_matches_spec (direction : Fin 3 → ℝ)
    (wavelength phase delay fwhm power dt : ℝ) (n : ℕ) :
    volumeStrength direction wavelength phase delay fwhm power dt n =
      specVolumeStrength direction wavelength phase delay fwhm power dt n := by
  funext i
  unfold volumeStrength specVolumeStrength pulseEnvelope cwComponent
  rw [show -2 * Real.pi * ((n : ℝ) * dt - delay) / wavelength
      + phase * (Real.pi / 180)
      = -(2 * Real.pi * ((n : ℝ) * dt - delay) / wavelength)
      + phase * (Real.pi / 180) by ring]
  ring

/-- Extended value of a 32-bit float computation: an exact finite value,
NaN, or a signed infinity.  Rounding of finite results is abstracted
away; only the finite / NaN / infinite classification of IEEE-754
division is modelled. -/
inductive FVal where
  | fin (x : ℚ)
  | nan
  | inf
  | ninf
deriving DecidableEq

/-- IEEE-754 division on finite operands: zero divided by zero is NaN, a
nonzero value divided by zero is a signed infinity, otherwise the exact
quotient. -/
def fdiv (x y : FVal) : FVal :=
  match x, y with
  | .fin a, .fin b =>
    if b = 0 then (if a = 0 then .nan else if 0 < a then .inf else .ninf)
    else .fin (a / b)
  | _, _ => .nan

/-- CPML constant alpha_factor = sigma / (sigma + alpha), computed with an
unguarded division in PMLBoundary::new (src/fdtd/pml.rs line 1845). -/
def alpha_factor (sigma alpha : ℚ) : FVal :=
  fdiv (.fin sigma) (.fin (sigma + alpha))

/-- CPML constant b = exp(-(sigma + alpha) * dt)
(src/fdtd/pml.rs line 1846), always finite for finite inputs. -/
noncomputable def psi_constant (sigma alpha dt : ℝ) : ℝ :=
  Real.exp (-(sigma + alpha) * dt)

lemma alpha_factor_of_ne (sigma alpha : ℚ) (h : sigma + alpha ≠ 0) :
    alpha_factor sigma alpha = .fin (sigma / (sigma + alpha)) := by
  simp [alpha_factor, fdiv, h]

lemma alpha_factor_of_eq (sigma alpha : ℚ) (h : sigma + alpha = 0) :
    alpha_factor sigma alpha =
      (if sigma = 0 then FVal.nan else if 0 < sigma then FVal.inf else FVal.ninf) := by
  simp [alpha_factor, fdiv, h]

/-- C9: the unguarded division in PMLBoundary::new yields a well-defined
finite alpha_factor exactly when sigma + alpha is nonzero; the permitted
configuration sigma = alpha = 0 produces the indeterminate quotient 0/0
(NaN). -/
theorem alpha_factor_unguarded :
    (∀ sigma alpha : ℚ, sigma + alpha ≠ 0 →
      alpha_factor sigma alpha = .fin (sigma / (sigma + alpha))) ∧
    alpha_factor 0 0 = .nan ∧
    (∀ sigma alpha : ℚ,
      (∃ x, alpha_factor sigma alpha = .fin x) ↔ sigma + alpha ≠ 0) := by
  refine ⟨alpha_factor_of_ne, by simp [alpha_factor, fdiv], fun s a => ⟨?_, ?_⟩⟩
  · rintro ⟨x, hx⟩ h
    rw [alpha_factor_of_eq s a h] at hx
    split_ifs at hx
  · intro h
    exact ⟨_, alpha_factor_of_ne s a h⟩

/-- Witness for C9: with sigma = 1, alpha = 0 the precondition holds and
alpha_factor is the finite quotient. -/
theorem alpha_factor_unguarded_witness :
    ((1 : ℚ) + 0 ≠ 0) ∧ alpha_factor 1 0 = .fin (1 / (1 + 0)) :=
  ⟨by norm_num, alpha_factor_unguarded.1 1 0 (by norm_num)⟩

/-- Slice axes of the visualizer (src/fdtd/mod.rs SliceMode). -/
inductive SliceMode where
  | X
  | Y
  | Z
deriving DecidableEq

/-- Component index a slice mode selects in the shift vector and grid
dimension (the match arms of FDTD::new and get_slice_position). -/
def sliceAxis : SliceMode → Fin 3
  | .X => 0
  | .Y => 1
  | .Z => 2

/-- Slice-related state of the FDTD struct (src/fdtd/mod.rs). -/
structure FDTDSlice where
  grid_dimension : Fin 3 → ℕ
  shift_vector : Fin 3 → ℝ
  spatial_step : ℝ
  slice_position : ℝ
  slice_mode : SliceMode

/-- Construction-time normalization of the default slice position
(FDTD::new, src/fdtd/mod.rs lines 810-822):
(position + shift_mode) / (grid_mode - 1) / dx. -/
noncomputable def mkSlicePosition (position : ℝ) (mode : SliceMode) (shift : Fin 3 → ℝ)
    (grid : Fin 3 → ℕ) (dx : ℝ) : ℝ :=
  (position + shift (sliceAxis mode)) / ((grid (sliceAxis mode) : ℝ) - 1) / dx

/-- Read-back mapping of the slice position (FDTD::get_slice_position,
src/fdtd/mod.rs lines 984-996):
slice_position * (grid_mode - 1) * dx - shift_mode. -/
noncomputable def get_slice_position (s : FDTDSlice) : ℝ :=
  s.slice_position * ((s.grid_dimension (sliceAxis s.slice_mode) : ℝ) - 1) *
    s.spatial_step - s.shift_vector (sliceAxis s.slice_mode)

/-- C10: with an unchanged slice mode and no offset, get_slice_position
returns exactly the construction-time default position: the two mappings
are mutually inverse in exact real arithmetic. -/
theorem slice_position_round_trip (p : ℝ) (mode : SliceMode)
    (shift : Fin 3 → ℝ) (grid : Fin 3 → ℕ) (dx : ℝ)
    (hg : (grid (sliceAxis mode) : ℝ) ≠ 1) (hdx : dx ≠ 0) :
    get_slice_position ⟨grid, shift, dx, mkSlicePosition p mode shift grid dx, mode⟩ = p := by
  have h1 : (grid (sliceAxis mode) : ℝ) - 1 ≠ 0 := sub_ne_zero.mpr hg
  unfold get_slice_position mkSlicePosition
  field_simp
  ring

/-- Witness for C10 at a concrete grid of 11 cells, unit spatial step,
shift 2 and default position 3. -/
theorem slice_position_round_trip_witness :
    (((fun _ : Fin 3 => (11 : ℕ)) (sliceAxis .X) : ℝ) ≠ 1) ∧ ((1 : ℝ) ≠ 0) ∧
    get_slice_position ⟨fun _ => 11, fun _ => 2, 1,
      mkSlicePosition 3 .X (fun _ => 2) (fun _ => 11) 1, .X⟩ = 3 :=
  ⟨by norm_num, by norm_num,
    slice_position_round_trip 3 .X (fun _ => 2) (fun _ => 11) 1
      (by norm_num) (by norm_num)⟩

/-- Schedule entry of the configuration: a raw step index or a physical
time (src/main.rs TimingSettings). -/
inductive TimingSettings where
  | step (value : ℕ)
  | time (value : ℚ)
deriving DecidableEq

/-- Rounding of f32 round: half away from zero. -/
def roundHalfAwayFromZero (q : ℚ) : ℤ :=
  if 0 ≤ q then ⌊q + 1 / 2⌋ else ⌈q - 1 / 2⌉

/-- Resolution of a schedule entry to a step index (src/main.rs lines
453-461 and 1084-1104): a step entry is its value; a time entry is
round(time / dt) cast to u32 (saturating, hence Int.toNat). -/
def resolveTiming (dt : ℚ) : TimingSettings → ℕ
  | .step s => s
  | .time t => (roundHalfAwayFromZero (t / dt)).toNat

/-- Head drain of a schedule at post-increment counter n: the while-let
loop of src/main.rs lines 1084-1096 (and 1098-1221 for exports) removes
the head while its resolved step equals n and stops at the first head
that differs. -/
def drainSchedule (dt : ℚ) (n : ℕ) : List TimingSettings → List TimingSettings
  | [] => []
  | t :: rest =>
    if resolveTiming dt t = n then drainSchedule dt n rest else t :: rest

/-- Field source of the driver (src/main.rs Source): a modal texture
source or a volumetric source. -/
inductive Source where
  | texture (z_layer : ℕ) (wavelength delay fwhm : ℚ)
  | volume (direction : Fin 3 → ℚ) (wavelength : ℚ)
      (position size : Fin 3 → ℚ) (phase delay fwhm power : ℚ)

/-- Observable operations of one driver tick, in issue order.  Injection
events carry the source whose kernel is issued; the parameters pushed to
the kernels are modelled by volumeStrength and actualSize. -/
inductive TickEvent where
  | hUpdateKernel
  | magneticInjection (s : Source)
  | eUpdateKernel
  | electricInjection (s : Source)
  | stepIncrement
  | pauseScheduleConsult
  | exportScheduleConsult

/-- Mutable driver state across ticks (src/main.rs lines 807-811 and the
schedule lists of the settings). -/
structure DriverState where
  step_counter : ℕ
  pause_at : List TimingSettings
  exports : List TimingSettings
  paused : Bool
  magnetic_sources : List Source
  electric_sources : List Source

/-- One executed driver tick (the non-paused body of the RedrawRequested
arm, src/main.rs lines 918-1221): H-update kernel, magnetic source
injections in declaration order, E-update kernel, electric source
injections in declaration order, step counter increment, then the pause
schedule drain and the export schedule drain, both against the
incremented counter.  Returns the issue trace and the next state. -/
def tick (dt : ℚ) (s : DriverState) : List TickEvent × DriverState :=
  let updateH := [TickEvent.hUpdateKernel]
  let injectH := s.magnetic_sources.map TickEvent.magneticInjection
  let updateE := [TickEvent.eUpdateKernel]
  let injectE := s.electric_sources.map TickEvent.electricInjection
  let n := s.step_counter + 1
  let pauseRemaining := drainSchedule dt n s.pause_at
  let pausedNew := if pauseRemaining = s.pause_at then s.paused else true
  let exportsRemaining := drainSchedule dt n s.exports
  (updateH ++ injectH ++ updateE ++ injectE
      ++ [TickEvent.stepIncrement, TickEvent.pauseScheduleConsult,
          TickEvent.exportScheduleConsult],
   { s with
      step_counter := n
      pause_at := pauseRemaining
      paused := pausedNew
      exports := exportsRemaining })

/-- Iteration of k executed ticks. -/
def runTicks (dt : ℚ) : ℕ → DriverState → DriverState
  | 0, s => s
  | k + 1, s => runTicks dt k (tick dt s).2

/-- C1: within every executed tick, the H-update kernel is issued first,
then each magnetic source injection in declaration order, then the
E-update kernel, then each electric source injection in declaration
order, then the step counter increment; the pause and export schedules
are consulted only afterwards, against the incremented counter. -/
theorem tick_event_order (dt : ℚ) (s : DriverState) :
    (tick dt s).1 =
      [TickEvent.hUpdateKernel]
        ++ s.magnetic_sources.map TickEvent.magneticInjection
        ++ [TickEvent.eUpdateKernel]
        ++ s.electric_sources.map TickEvent.electricInjection
        ++ [TickEvent.stepIncrement, TickEvent.pauseScheduleConsult,
            TickEvent.exportScheduleConsult] ∧
    (tick dt s).2.step_counter = s.step_counter + 1 ∧
    (tick dt s).2.pause_at = drainSchedule dt (s.step_counter + 1) s.pause_at ∧
    (tick dt s).2.exports = drainSchedule dt (s.step_counter + 1) s.exports :=
  ⟨rfl, rfl, rfl, rfl⟩

lemma drainSchedule_of_sorted (dt : ℚ) (n : ℕ) (l : List TimingSettings)
    (hsorted : l.Pairwise (fun a b => resolveTiming dt a ≤ resolveTiming dt b))
    (hlow : ∀ t ∈ l, n ≤ resolveTiming dt t) :
    drainSchedule dt n l = l.filter (fun t => n < resolveTiming dt t) := by
  induction l with
  | nil => rfl
  | cons t rest ih =>
    rw [List.pairwise_cons] at hsorted
    obtain ⟨hhead, htail⟩ := hsorted
    have ht := hlow t (List.mem_cons_self t rest)
    by_cases he : resolveTiming dt t = n
    · have hrec := ih htail (fun u hu => hlow u (List.mem_cons_of_mem _ hu))
      simp [drainSchedule, he, hrec, List.filter_cons, lt_irrefl]
    · have hgt : n < resolveTiming dt t := lt_of_le_of_ne ht (fun hh => he hh.symm)
      have hrest : rest.filter (fun u => decide (n < resolveTiming dt u)) = rest :=
        List.filter_eq_self.mpr
          (fun u hu => decide_eq_true (lt_of_lt_of_le hgt (hhead u hu)))
      simp [drainSchedule, he, List.filter_cons, hgt, hrest]

lemma runTicks_filter (dt : ℚ) (k : ℕ) :
    ∀ (c : ℕ) (s : DriverState) (P E : List TimingSettings),
      P.Pairwise (fun a b => resolveTiming dt a ≤ resolveTiming dt b) →
      E.Pairwise (fun a b => resolveTiming dt a ≤ resolveTiming dt b) →
      s.step_counter = c →
      s.pause_at = P.filter (fun t => c < resolveTiming dt t) →
      s.exports = E.filter (fun t => c < resolveTiming dt t) →
      (runTicks dt k s).step_counter = c + k ∧
      (runTicks dt k s).pause_at =
        P.filter (fun t => c + k < resolveTiming dt t) ∧
      (runTicks dt k s).exports =
        E.filter (fun t => c + k < resolveTiming dt t) := by
  induction k with
  | zero =>
    intro c s P E _ _ hc hp he
    simpa [runTicks] using ⟨hc, hp, he⟩
  | succ k ih =>
    intro c s P E hP hE hc hp he
    have hstep : ∀ (L : List TimingSettings),
        L.Pairwise (fun a b => resolveTiming dt a ≤ resolveTiming dt b) →
        drainSchedule dt (c + 1) (L.filter (fun t => c < resolveTiming dt t)) =
          L.filter (fun t => c + 1 < resolveTiming dt t) := by
      intro L hL
      rw [drainSchedule_of_sorted dt (c + 1)
        (L.filter (fun t => c < resolveTiming dt t))
        (List.Pairwise.filter _ hL)
        (fun u hu => Nat.succ_le_of_lt
          (of_decide_eq_true (List.mem_filter.mp hu).2))]
      rw [List.filter_filter]
      refine List.filter_congr (fun u _ => ?_)
      by_cases h : c + 1 < resolveTiming dt u
      · simp [h, lt_trans (Nat.lt_succ_self c) h]
      · simp [h]
    have hnext := ih (c + 1) (tick dt s).2 P E hP hE
      (by simp [tick, hc])
      (by simp [tick, hc, hp, hstep P hP])
      (by simp [tick, hc, he, hstep E hE])
    have harith : c + 1 + k = c + (k + 1) := by omega
    rw [show runTicks dt (k + 1) s = runTicks dt k (tick dt s).2 from rfl]
    rw [harith] at hnext
    exact hnext

/-- C2 amended: with schedules resolved and sorted ascending and every
entry resolving to a step of at least 1, after k executed ticks from a
fresh driver the remaining schedules are exactly the entries whose
resolved step exceeds k: each entry is removed, in ascending order and
with none skipped, at the tick whose post-increment counter equals its
resolved step.  Entries resolving to step 0 are excluded: they are never
removed and block every entry behind them. -/
theorem schedule_consumption (dt : ℚ) (P E : List TimingSettings)
    (ms es : List Source) (k : ℕ)
    (hPs : P.Pairwise (fun a b => resolveTiming dt a ≤ resolveTiming dt b))
    (hEs : E.Pairwise (fun a b => resolveTiming dt a ≤ resolveTiming dt b))
    (hP1 : ∀ t ∈ P, 1 ≤ resolveTiming dt t)
    (hE1 : ∀ t ∈ E, 1 ≤ resolveTiming dt t) :
    (runTicks dt k ⟨0, P, E, false, ms, es⟩).step_counter = k ∧
    (runTicks dt k ⟨0, P, E, false, ms, es⟩).pause_at =
      P.filter (fun t => k < resolveTiming dt t) ∧
    (runTicks dt k ⟨0, P, E, false, ms, es⟩).exports =
      E.filter (fun t => k < resolveTiming dt t) := by
  have h := runTicks_filter dt k 0 ⟨0, P, E, false, ms, es⟩ P E hPs hEs rfl
    (by
      symm
      exact List.filter_eq_self.mpr (fun u hu => decide_eq_true (hP1 u hu)))
    (by
      symm
      exact List.filter_eq_self.mpr (fun u hu => decide_eq_true (hE1 u hu)))
  simpa using h

/-- Witness for C2 amended at a concrete preset: dt = 1, pause schedule
[step 1, step 2], one tick executed. -/
theorem schedule_consumption_witness :
    ([TimingSettings.step 1, TimingSettings.step 2].Pairwise
        (fun a b => resolveTiming 1 a ≤ resolveTiming 1 b)) ∧
    (∀ t ∈ [TimingSettings.step 1, TimingSettings.step 2],
      1 ≤ resolveTiming 1 t) ∧
    ((runTicks 1 1 ⟨0, [TimingSettings.step 1, TimingSettings.step 2],
        [], false, [], []⟩).step_counter = 1 ∧
      (runTicks 1 1 ⟨0, [TimingSettings.step 1, TimingSettings.step 2],
        [], false, [], []⟩).pause_at =
        [TimingSettings.step 1, TimingSettings.step 2].filter
          (fun t => 1 < resolveTiming 1 t) ∧
      (runTicks 1 1 ⟨0, [TimingSettings.step 1, TimingSettings.step 2],
        [], false, [], []⟩).exports =
        ([] : List TimingSettings).filter (fun t => 1 < resolveTiming 1 t)) :=
  ⟨by decide, by decide,
    schedule_consumption 1 [TimingSettings.step 1, TimingSettings.step 2]
      [] [] [] 1 (by decide) (by decide) (by decide) (by decide)⟩

/-- C2 counterexample: with the resolved, sorted pause schedule [0, 1],
after 3 executed ticks both entries are still queued.  The post-increment
counter is always at least 1, so the step-0 head is never removed, and it
blocks the step-1 entry that the claim says is removed at tick 1. -/
theorem schedule_zero_entry_counterexample :
    (runTicks 1 3 ⟨0, [TimingSettings.step 0, TimingSettings.step 1],
        [], false, [], []⟩).pause_at =
      [TimingSettings.step 0, TimingSettings.step 1] := by
  decide

/-- PML regions in the order PMLBoundary iterates them in
update_electric_field and update_magnetic_field (src/fdtd/pml.rs lines
1850-2116 and 2118-2384): 8 corners, 2 X-surfaces, 2 Y-surfaces,
2 Z-surfaces, 4 X-edges, 4 Y-edges, 4 Z-edges. -/
inductive PmlRegion where
  | corner (i : Fin 8)
  | surfaceX (i : Fin 2)
  | surfaceY (i : Fin 2)
  | surfaceZ (i : Fin 2)
  | edgeX (i : Fin 4)
  | edgeY (i : Fin 4)
  | edgeZ (i : Fin 4)
deriving DecidableEq, Fintype

/-- Compute dispatches of one field half-step under a PML boundary. -/
inductive HalfStepEvent where
  | psiUpdateDispatch (r : PmlRegion)
  | fieldCorrectionDispatch (r : PmlRegion)
  | mainFieldUpdateDispatch
deriving DecidableEq

/-- Dispatches issued for one PML region: its psi-update kernel, then its
field-correction kernel (each per-region for_each body in
PMLBoundary::update_electric_field / update_magnetic_field). -/
def pmlRegionDispatches (r : PmlRegion) : List HalfStepEvent :=
  [.psiUpdateDispatch r, .fieldCorrectionDispatch r]

/-- Dispatch trace of PMLBoundary::update_electric_field (and
symmetrically update_magnetic_field): corners, X-surfaces, Y-surfaces,
Z-surfaces, X-edges, Y-edges, Z-edges, psi before correction per
region. -/
def pmlUpdateTrace : List HalfStepEvent :=
  ((List.finRange 8).map PmlRegion.corner).flatMap pmlRegionDispatches
    ++ ((List.finRange 2).map PmlRegion.surfaceX).flatMap pmlRegionDispatches
    ++ ((List.finRange 2).map PmlRegion.surfaceY).flatMap pmlRegionDispatches
    ++ ((List.finRange 2).map PmlRegion.surfaceZ).flatMap pmlRegionDispatches
    ++ ((List.finRange 4).map PmlRegion.edgeX).flatMap pmlRegionDispatches
    ++ ((List.finRange 4).map PmlRegion.edgeY).flatMap pmlRegionDispatches
    ++ ((List.finRange 4).map PmlRegion.edgeZ).flatMap pmlRegionDispatches

/-- Dispatch trace of one half-step under a PML boundary
(FDTD::update_electric_field, src/fdtd/mod.rs lines 904-919, and
FDTD::update_magnetic_field, lines 839-854): the PML region dispatches
are issued first, the main Yee update kernel dispatch last. -/
def updateFieldHalfStepTrace : List HalfStepEvent :=
  pmlUpdateTrace ++ [.mainFieldUpdateDispatch]

/-- C3 counterexample: in a half-step the field-correction dispatch of
corner 0 is issued BEFORE the main field-update dispatch, not after it as
the claim states. -/
theorem pml_correction_after_main_counterexample :
    ¬ updateFieldHalfStepTrace.indexOf HalfStepEvent.mainFieldUpdateDispatch <
        updateFieldHalfStepTrace.indexOf
          (HalfStepEvent.fieldCorrectionDispatch (PmlRegion.corner 0)) := by
  decide

/-- C3 amended: within each half-step the main field-update dispatch is
issued last: for every one of the 26 PML regions, that region
field-correction dispatch is issued before the main field-update kernel
dispatch of the same half-step, and after that region psi-update
dispatch. -/
theorem pml_dispatch_order :
    ∀ r : PmlRegion,
      updateFieldHalfStepTrace.indexOf (HalfStepEvent.fieldCorrectionDispatch r) <
        updateFieldHalfStepTrace.indexOf HalfStepEvent.mainFieldUpdateDispatch ∧
      updateFieldHalfStepTrace.indexOf (HalfStepEvent.psiUpdateDispatch r) <
        updateFieldHalfStepTrace.indexOf (HalfStepEvent.fieldCorrectionDispatch r) := by
  decide

/-- Material update coefficients of one mesh
(FDTDConstants, src/fdtd/mod.rs). -/
structure FDTDConstants where
  ec2 : ℚ
  ec3 : ℚ
  hc2 : ℚ
  hc3 : ℚ

/-- Voxelization result of one mesh: the per-voxel hit flag grid produced
by the triangle ray casting of Importer::process_node (interior
coordinates), together with the material constants of the mesh. -/
structure MeshVoxelization where
  hit_flag : ℕ → ℕ → ℕ → Bool
  constants : FDTDConstants

/-- Wrapping u8 accumulation of hit flags along a z column
(src/fdtd/mod.rs lines 1735-1741): the accumulator cell copies the flag
and, for z > 0, adds the accumulator of the cell below; u8 addition
wraps modulo 256. -/
def accumulatedHits (flag : ℕ → Bool) : ℕ → ℕ
  | 0 => if flag 0 then 1 else 0
  | z + 1 => ((if flag (z + 1) then 1 else 0) + accumulatedHits flag z) % 256

/-- Coefficient grids: per grid cell the electric pair (ec2, ec3) and the
magnetic pair (hc2, hc3). -/
def CoeffGrid : Type := ℕ → ℕ → ℕ → (ℚ × ℚ) × (ℚ × ℚ)

/-- Inside test of one grid cell for one mesh: the cell lies in the
simulation interior (grid coordinate = interior coordinate plus
half_extent, src/fdtd/mod.rs lines 1725-1734) and the accumulated hit
parity of its column up to its z is odd (the guard of lines 1742-1749). -/
def insideCell (halfExtent : ℕ) (simDim : Fin 3 → ℕ) (m : MeshVoxelization)
    (gx gy gz : ℕ) : Bool :=
  decide (halfExtent ≤ gx) && decide (gx < halfExtent + simDim 0) &&
  decide (halfExtent ≤ gy) && decide (gy < halfExtent + simDim 1) &&
  decide (halfExtent ≤ gz) && decide (gz < halfExtent + simDim 2) &&
  decide (accumulatedHits
    (fun z => m.hit_flag (gx - halfExtent) (gy - halfExtent) z)
    (gz - halfExtent) % 2 = 1)

/-- Coefficient write of one mesh (Importer::process_node, src/fdtd/mod.rs
lines 1725-1752): every interior cell with odd accumulated parity
receives the mesh constants in both the electric and the magnetic grid;
every other cell keeps its previous value. -/
def processNode (halfExtent : ℕ) (simDim : Fin 3 → ℕ) (m : MeshVoxelization)
    (grid : CoeffGrid) : CoeffGrid :=
  fun gx gy gz =>
    if insideCell halfExtent simDim m gx gy gz
    then ((m.constants.ec2, m.constants.ec3), (m.constants.hc2, m.constants.hc3))
    else grid gx gy gz

/-- Sequential processing of the meshes in declaration order
(FDTD::new iterates the models list in order, src/fdtd/mod.rs
lines 171-183; load_gltf processes each scene node in order). -/
def processMeshes (halfExtent : ℕ) (simDim : Fin 3 → ℕ)
    (meshes : List MeshVoxelization) (grid : CoeffGrid) : CoeffGrid :=
  meshes.foldl (fun g m => processNode halfExtent simDim m g) grid

lemma accumulatedHits_mod_two (flag : ℕ → Bool) (z : ℕ) :
    accumulatedHits flag z % 2 =
      ((Finset.range (z + 1)).sum fun w => if flag w then 1 else 0) % 2 := by
  induction z with
  | zero => simp only [accumulatedHits, zero_add, Finset.sum_range_one]
  | succ z ih =>
    rw [accumulatedHits, Finset.sum_range_succ,
      Nat.mod_mod_of_dvd _ (by norm_num : (2 : ℕ) ∣ 256)]
    omega

lemma insideCell_shift (he : ℕ) (sd : Fin 3 → ℕ) (m : MeshVoxelization)
    (x y z : ℕ) :
    insideCell he sd m (x + he) (y + he) (z + he) =
      (decide (x < sd 0) && decide (y < sd 1) && decide (z < sd 2) &&
        decide ((((Finset.range (z + 1)).sum
          fun w => if m.hit_flag x y w then 1 else 0)) % 2 = 1)) := by
  unfold insideCell
  simp only [Nat.add_sub_cancel, accumulatedHits_mod_two]
  rw [Bool.eq_iff_iff]
  simp only [Bool.and_eq_true, decide_eq_true_eq]
  omega

lemma processMeshes_find (he : ℕ) (sd : Fin 3 → ℕ)
    (l : List MeshVoxelization) (grid : CoeffGrid) (gx gy gz : ℕ) :
    processMeshes he sd l grid gx gy gz =
      match l.reverse.find? (fun m => insideCell he sd m gx gy gz) with
      | some m =>
        ((m.constants.ec2, m.constants.ec3), (m.constants.hc2, m.constants.hc3))
      | none => grid gx gy gz := by
  induction l generalizing grid with
  | nil => rfl
  | cons m rest ih =>
    have hfold : processMeshes he sd (m :: rest) grid =
        processMeshes he sd rest (processNode he sd m grid) := rfl
    rw [hfold, ih, List.reverse_cons, List.find?_append]
    cases hf : rest.reverse.find? (fun m2 => insideCell he sd m2 gx gy gz) with
    | some m2 => simp [hf, Option.or]
    | none =>
      simp only [hf, Option.or, List.find?]
      cases hin : insideCell he sd m gx gy gz with
      | true => simp [processNode, hin]
      | false => simp [processNode, hin]

/-- C7: per mesh, the coefficient write targets exactly the interior
cells whose running sum of per-voxel hit flags from z = 0 up to and
including the cell is odd (the wrapping u8 accumulator preserves parity);
cells with even accumulated parity keep their previous coefficients; and
over a mesh list, the final value of a cell is the constants of the LAST
mesh in declaration order that classifies it inside, or the previous grid
value when no mesh does. -/
theorem mesh_parity_overwrite :
    (∀ (he : ℕ) (sd : Fin 3 → ℕ) (m : MeshVoxelization) (x y z : ℕ),
      insideCell he sd m (x + he) (y + he) (z + he) =
        (decide (x < sd 0) && decide (y < sd 1) && decide (z < sd 2) &&
          decide ((((Finset.range (z + 1)).sum
            fun w => if m.hit_flag x y w then 1 else 0)) % 2 = 1))) ∧
    (∀ (he : ℕ) (sd : Fin 3 → ℕ) (m : MeshVoxelization) (grid : CoeffGrid)
        (gx gy gz : ℕ), insideCell he sd m gx gy gz = false →
      processNode he sd m grid gx gy gz = grid gx gy gz) ∧
    (∀ (he : ℕ) (sd : Fin 3 → ℕ) (l : List MeshVoxelization) (grid : CoeffGrid)
        (gx gy gz : ℕ),
      processMeshes he sd l grid gx gy gz =
        match l.reverse.find? (fun m => insideCell he sd m gx gy gz) with
        | some m =>
          ((m.constants.ec2, m.constants.ec3), (m.constants.hc2, m.constants.hc3))
        | none => grid gx gy gz) := by
  refine ⟨insideCell_shift, ?_, processMeshes_find⟩
  intro he sd m grid gx gy gz h
  simp [processNode, h]

/-- Witness for C7 at a concrete configuration: one mesh whose column
flags are set only at interior z = 1, half extent 2, interior 4 cells per
axis.  The cell at interior z = 2 (odd accumulated parity) takes the mesh
constants; the cell at interior z = 0 (even parity) keeps the background
value. -/
theorem mesh_parity_overwrite_witness :
    insideCell 2 (fun _ => 4)
        ⟨fun _ _ z => z = 1, ⟨10, 11, 12, 13⟩⟩ 2 2 2 = false ∧
    processNode 2 (fun _ => 4) ⟨fun _ _ z => z = 1, ⟨10, 11, 12, 13⟩⟩
        (fun _ _ _ => ((0, 0), (0, 0))) 2 2 2 = ((0, 0), (0, 0)) ∧
    processMeshes 2 (fun _ => 4) [⟨fun _ _ z => z = 1, ⟨10, 11, 12, 13⟩⟩]
        (fun _ _ _ => ((0, 0), (0, 0))) 2 2 3 = ((10, 11), (12, 13)) := by
  refine ⟨by decide, ?_, ?_⟩
  · exact mesh_parity_overwrite.2.1 2 (fun _ => 4)
      ⟨fun _ _ z => z = 1, ⟨10, 11, 12, 13⟩⟩
      (fun _ _ _ => ((0, 0), (0, 0))) 2 2 2 (by decide)
  · rw [mesh_parity_overwrite.2.2 2 (fun _ => 4)
      [⟨fun _ _ z => z = 1, ⟨10, 11, 12, 13⟩⟩]
      (fun _ _ _ => ((0, 0), (0, 0))) 2 2 3]
    norm_num [insideCell, accumulatedHits]

end Grems
